import Mathlib

/-!
Shallow embedding of the three command-line tools of this repository:
`computeStatistics.py` (P1), `convertNumbers.py` (P2), `wordCount.py` (P3).
Python floats are modelled as exact rationals (ℚ); all example values in the
spec are exactly representable, so arithmetic on them agrees with the source.
Python dicts preserve insertion order, so they are modelled as association
lists extended at the tail.
-/

namespace PyStr

/-- Python whitespace classification, shared by `str.strip()` (no argument)
and `str.isspace()`: the ASCII whitespace characters.  (Both Python methods
also accept the same wider Unicode set; since they agree on every character,
restricting the embedding to ASCII is uniform across all uses.) -/
def isSpace (c : Char) : Bool :=
  c == ' ' || c == '\t' || c == '\n' || c == '\r' || c == '\x0b' || c == '\x0c'

/-- Python `str.strip()`: drop leading and trailing whitespace. -/
def strip (s : List Char) : List Char :=
  ((s.dropWhile isSpace).reverse.dropWhile isSpace).reverse

end PyStr

/-- Decimal digit characters of `n`, most significant first, with structural
fuel (each step divides by 10, so `fuel = n` suffices). -/
def decDigitsGo : ℕ → ℕ → List Char
  | 0, n => [Char.ofNat (48 + n % 10)]
  | fuel + 1, n =>
      if n < 10 then [Char.ofNat (48 + n)]
      else decDigitsGo fuel (n / 10) ++ [Char.ofNat (48 + n % 10)]

/-- Decimal digit characters of `n`, most significant first. -/
def decDigits (n : ℕ) : List Char := decDigitsGo n n


namespace ConvertNumbers

/-- Bits of `n` collected least-significant-first, mirroring the
`while x > 0` loop of `_to_binary_nonneg`.  The `fuel` argument makes the
recursion structural (the loop halves its argument, so `fuel = n` suffices);
it does not change the computed value. -/
def bitsLSBGo : ℕ → ℕ → List Char
  | _, 0 => []
  | 0, _ + 1 => []
  | fuel + 1, n + 1 =>
      (if (n + 1) % 2 = 1 then '1' else '0') :: bitsLSBGo fuel ((n + 1) / 2)

/-- LSB-first bit list of `n` (the loop of `_to_binary_nonneg`). -/
def bitsLSB (n : ℕ) : List Char := bitsLSBGo n n

/-- `_to_binary_nonneg`: convert `n ≥ 0` to binary using repeated division;
`0` renders as `"0"`, otherwise the LSB-first digit list is reversed. -/
def toBinaryNonneg (n : ℕ) : String :=
  if n = 0 then "0" else String.mk (bitsLSB n).reverse

/-- The digit alphabet `"0123456789ABCDEF"` of `_to_hex_nonneg`. -/
def hexDigitChars : List Char :=
  ['0', '1', '2', '3', '4', '5', '6', '7', '8', '9', 'A', 'B', 'C', 'D', 'E', 'F']

/-- Hex digits of `n` collected least-significant-first, mirroring the
`while x > 0` loop of `_to_hex_nonneg`, with structural fuel as above. -/
def hexLSBGo : ℕ → ℕ → List Char
  | _, 0 => []
  | 0, _ + 1 => []
  | fuel + 1, n + 1 =>
      hexDigitChars.getD ((n + 1) % 16) '0' :: hexLSBGo fuel ((n + 1) / 16)

/-- LSB-first hex digit list of `n` (the loop of `_to_hex_nonneg`). -/
def hexLSB (n : ℕ) : List Char := hexLSBGo n n

/-- `_to_hex_nonneg`: convert `n ≥ 0` to uppercase hex by repeated division. -/
def toHexNonneg (n : ℕ) : String :=
  if n = 0 then "0" else String.mk (hexLSB n).reverse

/-- `BIN_NEG_BITS` from the source. -/
def BIN_NEG_BITS : ℕ := 10

/-- `HEX_NEG_DIGITS` from the source. -/
def HEX_NEG_DIGITS : ℕ := 10

/-- `_to_twos_complement_binary_10bit`: for negative `n`, render `2^10 + n`
in binary and zero-pad on the left to width 10.  Within the supported range
`-1024 ≤ n < 0` the value `2^10 + n` is a natural number, so the `.toNat`
cast is exact. -/
def toTwosComplementBinary10bit (n : ℤ) : String :=
  let base : ℤ := 2 ^ BIN_NEG_BITS
  let val : ℤ := base + n
  let b := toBinaryNonneg val.toNat
  if b.length < BIN_NEG_BITS then
    String.mk (List.replicate (BIN_NEG_BITS - b.length) '0') ++ b
  else b

/-- `_to_sign_extended_hex_10digits_from_bin`: read the 10-bit pattern as a
number, render it in hex, left-pad with `'0'` to at least 2 digits, then
left-pad with `'F'` to `HEX_NEG_DIGITS` digits. -/
def toSignExtendedHex10digitsFromBin (bin10 : String) : String :=
  let val : ℕ := bin10.data.foldl (fun a c => a * 2 + (if c = '1' then 1 else 0)) 0
  let lowHex := toHexNonneg val
  let lowHex2 := if lowHex.length < 2 then
      String.mk (List.replicate (2 - lowHex.length) '0') ++ lowHex
    else lowHex
  if lowHex2.length < HEX_NEG_DIGITS then
    String.mk (List.replicate (HEX_NEG_DIGITS - lowHex2.length) 'F') ++ lowHex2
  else lowHex2

/-- `_convert_number`: binary and hex strings for an accepted integer. -/
def convertNumber (n : ℤ) : String × String :=
  if n ≥ 0 then (toBinaryNonneg n.toNat, toHexNonneg n.toNat)
  else
    let bin10 := toTwosComplementBinary10bit n
    (bin10, toSignExtendedHex10digitsFromBin bin10)

/-- Interpretation of a string as a base-2 numeral (specification side). -/
def binValue (s : String) : ℕ :=
  s.data.foldl (fun a c => 2 * a + (if c = '1' then 1 else 0)) 0

/-- Numeric value of one hex digit character (specification side). -/
def hexCharVal (c : Char) : ℕ := hexDigitChars.indexOf c

/-- Interpretation of a string as a base-16 numeral (specification side). -/
def hexValue (s : String) : ℕ :=
  s.data.foldl (fun a c => 16 * a + hexCharVal c) 0

/-- `_parse_int`: strip, optional sign, all-digit check, manual base-10
accumulation. -/
def parseInt (line : List Char) : Option ℤ :=
  let text := PyStr.strip line
  if text.isEmpty then none
  else
    let sgn : ℤ := if text.headD ' ' == '-' then -1 else 1
    let text1 := if text.headD ' ' == '-' || text.headD ' ' == '+' then text.tail else text
    if text1.isEmpty then none
    else if text1.all (fun c => '0' ≤ c && c ≤ '9') then
      some (sgn * (text1.foldl (fun v c => v * 10 + (c.toNat - 48)) 0 : ℕ))
    else none

/-- The `_read_rows` loop on the lines of a successfully opened file: accepted
rows `(value, bin, hex)` in input order, plus the console diagnostics
`(line number, stripped text)` of the reported invalid lines.  Rejected blank
lines produce no diagnostic. -/
def readRowsAux : ℕ → List (List Char) → List (ℤ × String × String) × List (ℕ × List Char)
  | _, [] => ([], [])
  | lineNum, raw :: rest =>
      let (rows, ds) := readRowsAux (lineNum + 1) rest
      match parseInt raw with
      | some v => ((v, convertNumber v) :: rows, ds)
      | none =>
          let bad := PyStr.strip raw
          if bad.isEmpty then (rows, ds) else (rows, (lineNum, bad) :: ds)

/-- `_read_rows` over a whole file (line numbers start at 1). -/
def readRows (lines : List (List Char)) : List (ℤ × String × String) × List (ℕ × List Char) :=
  readRowsAux 1 lines

/-- Decimal rendering of a Python integer (for the VALUE column). -/
def intRepr (v : ℤ) : String :=
  if v < 0 then String.mk ('-' :: decDigits v.natAbs) else String.mk (decDigits v.toNat)

/-- One data line of `_build_report`: `idx\tvalue\tbin\thex`. -/
def rowLine (idx : ℕ) (row : ℤ × String × String) : String :=
  String.mk (decDigits idx) ++ "\t" ++ intRepr row.1 ++ "\t" ++ row.2.1 ++ "\t" ++ row.2.2

/-- `_build_report`: header, one numbered line per accepted row in input
order, and the elapsed-time line (passed in, being environmental). -/
def buildReport (rows : List (ℤ × String × String)) (timeLine : String) : List String :=
  "ITEM\tVALUE\tBIN\tHEX" :: (List.enumFrom 1 rows).map (fun p => rowLine p.1 p.2) ++ [timeLine]

/-- `main` after a successful read: always exit code 0 with a report, even
when no row was accepted. -/
def convertMain (lines : List (List Char)) (timeLine : String) : ℕ × Option (List String) :=
  (0, some (buildReport (readRows lines).1 timeLine))

/-- Specification-side description of one `_read_rows` step: the diagnostic
(if any) an input line produces, keyed by its line number. -/
def lineDiag (p : ℕ × List Char) : Option (ℕ × List Char) :=
  match parseInt p.2 with
  | some _ => none
  | none => if (PyStr.strip p.2).isEmpty then none else some (p.1, PyStr.strip p.2)

/-- Specification-side description of one `_read_rows` step: the accepted row
(if any) an input line produces. -/
def lineRow (raw : List Char) : Option (ℤ × String × String) :=
  (parseInt raw).map (fun v => (v, convertNumber v))

end ConvertNumbers

namespace ComputeStatistics

/-- `_mean`: running total divided by running count (`0` when empty). -/
def meanOf (values : List ℚ) : ℚ :=
  let total := values.foldl (fun t v => t + v) 0
  let count := values.length
  if 0 < count then total / count else 0

/-- `_median`: middle element of the (already sorted) list for odd length,
average of the two middle elements for even length, `0` when empty. -/
def medianOf (sortedValues : List ℚ) : ℚ :=
  let n := sortedValues.length
  if n = 0 then 0
  else
    let mid := n / 2
    if n % 2 = 1 then sortedValues.getD mid 0
    else (sortedValues.getD (mid - 1) 0 + sortedValues.getD mid 0) / 2

/-- Python's `sorted`: a stable ascending sort. -/
def sortValues (values : List ℚ) : List ℚ :=
  List.insertionSort (· ≤ ·) values

/-- One step of the `_mode` loop body: bump `freq[v]` if `v` is a known key,
else insert `freq[v] = 1` and `first_pos[v] = i`.  Python dicts preserve
insertion order, so `freq` and `first_pos` (whose keys arrive together) are
modelled as one association list `(value, count, firstPos)` extended at the
tail. -/
def updateTable : List (ℚ × ℕ × ℕ) → ℕ → ℚ → List (ℚ × ℕ × ℕ)
  | [], i, v => [(v, 1, i)]
  | (w, c, p) :: rest, i, v =>
      if w = v then (w, c + 1, p) :: rest
      else (w, c, p) :: updateTable rest i v

/-- The `for idx, v in enumerate(values)` loop of `_mode`. -/
def buildTableAux : ℕ → List ℚ → List (ℚ × ℕ × ℕ) → List (ℚ × ℕ × ℕ)
  | _, [], t => t
  | i, v :: rest, t => buildTableAux (i + 1) rest (updateTable t i v)

/-- The frequency/first-position table of `_mode` over the whole input. -/
def buildTable (l : List ℚ) : List (ℚ × ℕ × ℕ) := buildTableAux 0 l []

/-- The `max_count` loop of `_mode`: fold `max` over the stored counts. -/
def maxCount (t : List (ℚ × ℕ × ℕ)) : ℕ :=
  t.foldl (fun m e => max m e.2.1) 0

/-- The selection loop of `_mode`: scan the table in insertion order keeping
the entry with maximal count and strictly smaller first position. -/
def selectBestAux : List (ℚ × ℕ × ℕ) → ℕ → Option (ℚ × ℕ) → Option (ℚ × ℕ)
  | [], _, best => best
  | (v, c, p) :: rest, mc, none =>
      if c = mc then selectBestAux rest mc (some (v, p))
      else selectBestAux rest mc none
  | (v, c, p) :: rest, mc, some (bv, bp) =>
      if c = mc then
        (if p < bp then selectBestAux rest mc (some (v, p))
         else selectBestAux rest mc (some (bv, bp)))
      else selectBestAux rest mc (some (bv, bp))

/-- `_mode`: `none` models `(False, None)` (no mode), `some v` models
`(True, v)`. -/
def modeOf (l : List ℚ) : Option ℚ :=
  let t := buildTable l
  let mc := maxCount t
  if mc ≤ 1 then none
  else (selectBestAux t mc none).map Prod.fst

/-- Correctness invariant of the `_mode` table relative to the processed
prefix `pre`: keys are exactly the distinct values seen, without duplicates,
and each entry stores the frequency and first-occurrence index of its key. -/
def TableInv (pre : List ℚ) (t : List (ℚ × ℕ × ℕ)) : Prop :=
  (∀ v : ℚ, v ∈ t.map Prod.fst ↔ v ∈ pre) ∧
  (t.map Prod.fst).Nodup ∧
  ∀ e ∈ t, e.2.1 = pre.count e.1 ∧ e.2.2 = pre.indexOf e.1

/-- `_population_variance`: mean of squared deviations, divisor `n`. -/
def populationVariance (values : List ℚ) (meanVal : ℚ) : ℚ :=
  let n := values.length
  if n = 0 then 0
  else (values.foldl (fun acc v => acc + (v - meanVal) * (v - meanVal)) 0) / n

/-- The Python format `f"{x:.10f}"` on a non-negative value: the digits of
`x` scaled by `10^10` and rounded to the nearest integer, zero-padded to at
least 11 digits, with the decimal point inserted before the last 10.  (CPython
rounds the binary double exactly; on the exact rationals modelled here this
is rounding to nearest, and no spec example sits on a tie.) -/
def formatFixed10 (x : ℚ) : List Char :=
  let scaled : ℕ := (⌊x * 10 ^ 10 + 1 / 2⌋).toNat
  let s := decDigits scaled
  let s2 := if s.length < 11 then List.replicate (11 - s.length) '0' ++ s else s
  s2.take (s2.length - 10) ++ '.' :: s2.drop (s2.length - 10)

/-- Python `rstrip("0")`: remove all trailing `'0'` characters. -/
def stripTrailingZeros (s : List Char) : List Char :=
  ((s.reverse).dropWhile (· == '0')).reverse

/-- Python `rstrip(".")`: remove all trailing `'.'` characters. -/
def stripTrailingDot (s : List Char) : List Char :=
  ((s.reverse).dropWhile (· == '.')).reverse

/-- `_format_number`: `f"{x:.10f}".rstrip("0").rstrip(".")`, with `"0"` when
stripping leaves the empty string. -/
def formatNumber (x : ℚ) : String :=
  let raw := if x < 0 then '-' :: formatFixed10 (-x) else formatFixed10 x
  let stripped := stripTrailingDot (stripTrailingZeros raw)
  if stripped.isEmpty then "0" else String.mk stripped

/-- `_population_std`: `variance ** 0.5`, i.e. the non-negative square root,
modelled over the reals. -/
noncomputable def populationStd (varianceVal : ℚ) : ℝ :=
  Real.sqrt varianceVal

/-- Numeric value of a digit string. -/
def digitsVal (ds : List Char) : ℕ :=
  ds.foldl (fun a c => 10 * a + (c.toNat - 48)) 0

/-- Python `float(text)` on a stripped string, modelled as exact rational
parsing of the float-literal grammar
`[sign] (digits [. digits] | . digits) [(e|E) [sign] digits]`.
(The `inf`/`nan` words and underscore digit separators CPython also accepts
are not modelled; no claim depends on them.) -/
def parseFloat (cs : List Char) : Option ℚ :=
  let sgn : ℚ := if cs.headD ' ' == '-' then -1 else 1
  let cs1 := if cs.headD ' ' == '-' || cs.headD ' ' == '+' then cs.tail else cs
  let ip := cs1.takeWhile Char.isDigit
  let cs2 := cs1.dropWhile Char.isDigit
  let fp := match cs2 with
    | '.' :: r => some (r.takeWhile Char.isDigit)
    | _ => none
  let cs3 := match cs2 with
    | '.' :: r => r.dropWhile Char.isDigit
    | _ => cs2
  if ip.isEmpty && (fp.getD []).isEmpty then none
  else
    let mant : ℚ := (digitsVal ip : ℚ) + (digitsVal (fp.getD []) : ℚ) / (10 : ℚ) ^ (fp.getD []).length
    match cs3 with
    | [] => some (sgn * mant)
    | e :: r =>
        if e == 'e' || e == 'E' then
          let esgn : ℤ := if r.headD ' ' == '-' then -1 else 1
          let r1 := if r.headD ' ' == '-' || r.headD ' ' == '+' then r.tail else r
          let ed := r1.takeWhile Char.isDigit
          let r2 := r1.dropWhile Char.isDigit
          if ed.isEmpty || !r2.isEmpty then none
          else some (sgn * mant * (10 : ℚ) ^ (esgn * (digitsVal ed : ℤ)))
        else none

/-- `_try_parse_number`: strip; empty fails; commas become decimal points;
then parse as a float literal. -/
def tryParseNumber (raw : List Char) : Option ℚ :=
  let text := PyStr.strip raw
  if text.isEmpty then none
  else parseFloat (text.map (fun c => if c == ',' then '.' else c))

/-- The `_read_values` loop on the lines of a successfully opened file:
accepted values in input order plus console diagnostics
`(line number, stripped text)` for reported invalid lines.  Rejected blank
lines produce no diagnostic and no value. -/
def readValuesAux : ℕ → List (List Char) → List ℚ × List (ℕ × List Char)
  | _, [] => ([], [])
  | lineNum, raw :: rest =>
      let (vs, ds) := readValuesAux (lineNum + 1) rest
      match tryParseNumber raw with
      | some v => (v :: vs, ds)
      | none =>
          let bad := PyStr.strip raw
          if bad.isEmpty then (vs, ds) else (vs, (lineNum, bad) :: ds)

/-- `_read_values` over a whole file (line numbers start at 1). -/
def readValues (lines : List (List Char)) : List ℚ × List (ℕ × List Char) :=
  readValuesAux 1 lines

/-- The `StatisticsResult` dataclass.  The standard deviation lives in `ℝ`
because it is a square root. -/
structure StatisticsResult where
  count : ℕ
  mean : ℚ
  median : ℚ
  mode : String
  sd : ℝ
  variance : ℚ
  elapsed : ℚ

/-- `_compute_statistics`. -/
noncomputable def computeStatistics (values : List ℚ) (elapsed : ℚ) : StatisticsResult :=
  let valuesSorted := sortValues values
  let meanVal := meanOf values
  let medianVal := medianOf valuesSorted
  let modeStr := match modeOf values with
    | some v => formatNumber v
    | none => "#N/A"
  let varVal := populationVariance values meanVal
  ⟨values.length, meanVal, medianVal, modeStr, populationStd varVal, varVal, elapsed⟩

/-- `main` after a successful read: zero accepted values print an error and
abort with exit code 1 and no report; otherwise exit code 0 with the computed
statistics. -/
noncomputable def statisticsMain (lines : List (List Char)) (elapsed : ℚ) :
    ℕ × Option StatisticsResult :=
  let values := (readValues lines).1
  if values.isEmpty then (1, none)
  else (0, some (computeStatistics values elapsed))

/-- Specification-side description of one `_read_values` step: the diagnostic
(if any) an input line produces, keyed by its line number. -/
def lineDiag (p : ℕ × List Char) : Option (ℕ × List Char) :=
  match tryParseNumber p.2 with
  | some _ => none
  | none => if (PyStr.strip p.2).isEmpty then none else some (p.1, PyStr.strip p.2)

end ComputeStatistics

namespace WordCount

/-- The character-scanning loop of `_tokenize`: `current` holds the pending
word in reverse (the Python list is appended at the tail; the reversal at
flush time restores source order). -/
def tokenizeAux : List Char → List Char → List (List Char)
  | [], current => if current.isEmpty then [] else [current.reverse]
  | c :: rest, current =>
      if PyStr.isSpace c then
        (if current.isEmpty then tokenizeAux rest []
         else current.reverse :: tokenizeAux rest [])
      else tokenizeAux rest (c :: current)

/-- `_tokenize`: maximal runs of non-whitespace characters, in order. -/
def tokenize (text : List Char) : List (List Char) := tokenizeAux text []

/-- Bump the count of `w` in the association list (the key is present). -/
def incrCount : List (List Char × ℕ) → List Char → List (List Char × ℕ)
  | [], _ => []
  | (k, c) :: rest, w => if k = w then (k, c + 1) :: rest else (k, c) :: incrCount rest w

/-- The loop of `_count_words`: `counts` is the dict in insertion order,
`order` the first-appearance list. -/
def countWordsAux : List (List Char) → List (List Char × ℕ) → List (List Char) →
    List (List Char × ℕ) × List (List Char)
  | [], counts, order => (counts, order)
  | w :: rest, counts, order =>
      if w ∈ counts.map Prod.fst then countWordsAux rest (incrCount counts w) order
      else countWordsAux rest (counts ++ [(w, 1)]) (order ++ [w])

/-- `_count_words`. -/
def countWords (ws : List (List Char)) : List (List Char × ℕ) × List (List Char) :=
  countWordsAux ws [] []

/-- `raw_line.strip("\n")`: drop only leading/trailing newline characters. -/
def stripNewline (s : List Char) : List Char :=
  ((s.dropWhile (· == '\n')).reverse.dropWhile (· == '\n')).reverse

/-- The read loop of `main`: accepted tokens in order, plus console
diagnostics `(line number, reason)`; an all-whitespace line is reported as
`"empty line"`, a tokenization yielding no words as `"no words"`. -/
def readWordsAux : ℕ → List (List Char) → List (List Char) × List (ℕ × String)
  | _, [] => ([], [])
  | lineNum, raw :: rest =>
      let (ws, ds) := readWordsAux (lineNum + 1) rest
      let line := stripNewline raw
      if (PyStr.strip line).isEmpty then (ws, (lineNum, "empty line") :: ds)
      else
        let words := tokenize line
        if words.isEmpty then (ws, (lineNum, "no words") :: ds)
        else (words ++ ws, ds)

/-- The read loop over a whole file (line numbers start at 1). -/
def readWords (lines : List (List Char)) : List (List Char) × List (ℕ × String) :=
  readWordsAux 1 lines

/-- `_build_report`: header, one `word\tcount` line per distinct word in
first-appearance order, and the elapsed-time line. -/
def buildReport (counts : List (List Char × ℕ)) (order : List (List Char))
    (timeLine : String) : List String :=
  "WORD\tCOUNT" ::
    order.map (fun w => String.mk w ++ "\t" ++ String.mk (decDigits (((counts.find? (fun e => e.1 = w)).map Prod.snd).getD 0))) ++
    [timeLine]

/-- `main` after a successful read: always exit code 0 with a report, even
when no token was accepted. -/
def wordCountMain (lines : List (List Char)) (timeLine : String) : ℕ × Option (List String) :=
  let ws := (readWords lines).1
  let co := countWords ws
  (0, some (buildReport co.1 co.2 timeLine))

/-- Specification-side description of one read-loop step: the diagnostic
(if any) an input line produces. -/
def lineDiag (p : ℕ × List Char) : Option (ℕ × String) :=
  let line := stripNewline p.2
  if (PyStr.strip line).isEmpty then some (p.1, "empty line")
  else if (tokenize line).isEmpty then some (p.1, "no words") else none

/-- Specification-side description of one read-loop step: the tokens an input
line contributes. -/
def lineWords (raw : List Char) : List (List Char) :=
  let line := stripNewline raw
  if (PyStr.strip line).isEmpty then []
  else if (tokenize line).isEmpty then [] else tokenize line

/-- Correctness invariant of the `_count_words` state relative to the
processed prefix `pre`: the dict keys are the order list, which holds each
distinct word once in first-appearance order; each entry stores its word's
frequency; the frequencies sum to the number of words seen. -/
def CountInv (pre : List (List Char)) (counts : List (List Char × ℕ))
    (order : List (List Char)) : Prop :=
  counts.map Prod.fst = order ∧
  order.Nodup ∧
  (∀ w, w ∈ order ↔ w ∈ pre) ∧
  (∀ e ∈ counts, e.2 = pre.count e.1) ∧
  (counts.map Prod.snd).sum = pre.length ∧
  order.Pairwise (fun a b => pre.indexOf a < pre.indexOf b)

end WordCount


namespace ConvertNumbers

theorem hexDigit_getD_val : ∀ d : ℕ, d < 16 → hexCharVal (hexDigitChars.getD d '0') = d := by
  decide

theorem hexDigit_getD_mem : ∀ d : ℕ, d < 16 → hexDigitChars.getD d '0' ∈ hexDigitChars := by
  decide

theorem bitsLSBGo_foldr (fuel n : ℕ) (h : n ≤ fuel) :
    (bitsLSBGo fuel n).foldr (fun c a => 2 * a + (if c = '1' then 1 else 0)) 0 = n := by
  induction fuel generalizing n with
  | zero =>
      interval_cases n
      simp [bitsLSBGo]
  | succ fuel ih =>
      match n with
      | 0 => simp [bitsLSBGo]
      | m + 1 =>
          have hdiv : (m + 1) / 2 ≤ fuel := by omega
          simp only [bitsLSBGo, List.foldr_cons, ih _ hdiv]
          have := Nat.div_add_mod (m + 1) 2
          have hm : (m + 1) % 2 = 0 ∨ (m + 1) % 2 = 1 := Nat.mod_two_eq_zero_or_one _
          rcases hm with hm | hm <;> simp [hm] <;> omega

theorem hexLSBGo_foldr (fuel n : ℕ) (h : n ≤ fuel) :
    (hexLSBGo fuel n).foldr (fun c a => 16 * a + hexCharVal c) 0 = n := by
  induction fuel generalizing n with
  | zero =>
      interval_cases n
      simp [hexLSBGo]
  | succ fuel ih =>
      match n with
      | 0 => simp [hexLSBGo]
      | m + 1 =>
          have hdiv : (m + 1) / 16 ≤ fuel := by omega
          simp only [hexLSBGo, List.foldr_cons, ih _ hdiv]
          rw [hexDigit_getD_val _ (Nat.mod_lt _ (by norm_num))]
          omega

theorem hexLSBGo_mem (fuel n : ℕ) : ∀ c ∈ hexLSBGo fuel n, c ∈ hexDigitChars := by
  induction fuel generalizing n with
  | zero =>
      match n with
      | 0 => simp [hexLSBGo]
      | _ + 1 => simp [hexLSBGo]
  | succ fuel ih =>
      match n with
      | 0 => simp [hexLSBGo]
      | m + 1 =>
          intro c hc
          simp only [hexLSBGo, List.mem_cons] at hc
          rcases hc with hc | hc
          · subst hc
            exact hexDigit_getD_mem _ (Nat.mod_lt _ (by norm_num))
          · exact ih _ c hc

/-- C2: for every non-negative integer `n`, the produced binary string read in
base 2 and the hex string read in base 16 both recover `n`; `0` renders as
`"0"` in both bases; the hex output uses only the digit alphabet 0-9A-F. -/
theorem conversion_roundtrip_nonneg (n : ℕ) :
    binValue (toBinaryNonneg n) = n ∧
    hexValue (toHexNonneg n) = n ∧
    toBinaryNonneg 0 = "0" ∧ toHexNonneg 0 = "0" ∧
    (∀ c ∈ (toHexNonneg n).data, c ∈ hexDigitChars) := by
  refine ⟨?_, ?_, rfl, rfl, ?_⟩
  · by_cases h : n = 0
    · subst h; decide
    · simp only [toBinaryNonneg, if_neg h, binValue]
      show ((bitsLSB n).reverse).foldl _ 0 = n
      rw [List.foldl_reverse]
      exact bitsLSBGo_foldr n n le_rfl
  · by_cases h : n = 0
    · subst h; decide
    · simp only [toHexNonneg, if_neg h, hexValue]
      show ((hexLSB n).reverse).foldl _ 0 = n
      rw [List.foldl_reverse]
      exact hexLSBGo_foldr n n le_rfl
  · by_cases h : n = 0
    · subst h; intro c hc; simp [toHexNonneg] at hc; subst hc; decide
    · simp only [toHexNonneg, if_neg h]
      intro c hc
      have : c ∈ (hexLSB n).reverse := hc
      rw [List.mem_reverse] at this
      exact hexLSBGo_mem n n c this

theorem conversion_roundtrip_nonneg_witness :
    binValue (toBinaryNonneg 1018) = 1018 ∧ 'F' ∈ hexDigitChars :=
  ⟨(conversion_roundtrip_nonneg 1018).1,
   (conversion_roundtrip_nonneg 255).2.2.2.2 'F' (by decide)⟩

/-- C1 (evaluation at the failing inputs): the code renders `-6` as binary
`1111111010` but hex `FFFFFFF3FA`, and `-1` as binary `1111111111` but hex
`FFFFFFF3FF` — the hex of the 10-bit pattern value (`0x3FA`, `0x3FF`)
F-padded to 10 digits, not the claimed `FFFFFFFFFA` / `FFFFFFFFFF` that the
source's own docstrings promise. -/
theorem convertNumber_neg_examples :
    convertNumber (-6) = ("1111111010", "FFFFFFF3FA") ∧
    convertNumber (-1) = ("1111111111", "FFFFFFF3FF") := by
  constructor <;> decide

end ConvertNumbers

namespace ComputeStatistics

theorem updateTable_keys (t : List (ℚ × ℕ × ℕ)) (i : ℕ) (v : ℚ) :
    (updateTable t i v).map Prod.fst =
      if v ∈ t.map Prod.fst then t.map Prod.fst else t.map Prod.fst ++ [v] := by
  induction t with
  | nil => simp [updateTable]
  | cons e rest ih =>
      obtain ⟨w, c, p⟩ := e
      by_cases hw : w = v
      · subst hw
        simp [updateTable]
      · simp only [updateTable, if_neg hw, List.map_cons]
        rw [ih]
        by_cases hv : v ∈ rest.map Prod.fst
        · simp [hv, List.mem_cons, Ne.symm hw]
        · simp [hv, List.mem_cons, Ne.symm hw]

theorem updateTable_entries (t : List (ℚ × ℕ × ℕ)) (i : ℕ) (v : ℚ)
    (hnd : (t.map Prod.fst).Nodup) :
    ∀ e ∈ updateTable t i v,
      (e.1 ≠ v ∧ e ∈ t) ∨
      (∃ c p, (v, c, p) ∈ t ∧ e = (v, c + 1, p)) ∨
      (v ∉ t.map Prod.fst ∧ e = (v, 1, i)) := by
  induction t with
  | nil =>
      intro e he
      simp only [updateTable, List.mem_singleton] at he
      exact Or.inr (Or.inr ⟨by simp, he⟩)
  | cons hd rest ih =>
      obtain ⟨w, c, p⟩ := hd
      simp only [List.map_cons, List.nodup_cons] at hnd
      obtain ⟨hwrest, hndrest⟩ := hnd
      intro e he
      by_cases hw : w = v
      · subst hw
        simp only [updateTable, if_pos rfl, if_true] at he
        rw [List.mem_cons] at he
        rcases he with he | he
        · exact Or.inr (Or.inl ⟨c, p, List.mem_cons_self _ _, he⟩)
        · refine Or.inl ⟨?_, List.mem_cons_of_mem _ he⟩
          intro h1
          exact hwrest (h1 ▸ List.mem_map_of_mem Prod.fst he)
      · simp only [updateTable, if_neg hw, List.mem_cons] at he
        rcases he with he | he
        · subst he
          exact Or.inl ⟨hw, List.mem_cons_self _ _⟩
        · rcases ih hndrest e he with h | ⟨c', p', hmem, heq⟩ | ⟨hnm, heq⟩
          · exact Or.inl ⟨h.1, List.mem_cons_of_mem _ h.2⟩
          · exact Or.inr (Or.inl ⟨c', p', List.mem_cons_of_mem _ hmem, heq⟩)
          · refine Or.inr (Or.inr ⟨?_, heq⟩)
            simp only [List.map_cons, List.mem_cons]
            rintro (h | h)
            · exact hw h.symm
            · exact hnm h

theorem tableInv_update {pre : List ℚ} {t : List (ℚ × ℕ × ℕ)}
    (h : TableInv pre t) (v : ℚ) :
    TableInv (pre ++ [v]) (updateTable t pre.length v) := by
  obtain ⟨hmem, hnd, hent⟩ := h
  refine ⟨?_, ?_, ?_⟩
  · intro w
    rw [updateTable_keys]
    by_cases hv : v ∈ t.map Prod.fst
    · rw [if_pos hv]
      rw [hmem]
      simp only [List.mem_append, List.mem_singleton]
      constructor
      · exact Or.inl
      · rintro (h | rfl)
        · exact h
        · exact (hmem w).1 hv
    · rw [if_neg hv]
      simp [hmem, List.mem_append]
  · rw [updateTable_keys]
    by_cases hv : v ∈ t.map Prod.fst
    · rw [if_pos hv]; exact hnd
    · rw [if_neg hv]
      exact List.Nodup.append hnd (List.nodup_singleton v)
        (by simpa [List.disjoint_singleton] using hv)
  · intro e he
    rcases updateTable_entries t pre.length v hnd e he with
      ⟨hne, het⟩ | ⟨c, p, hmemt, heq⟩ | ⟨hnm, heq⟩
    · obtain ⟨hc, hp⟩ := hent e het
      have hel : e.1 ∈ pre := (hmem e.1).1 (List.mem_map_of_mem Prod.fst het)
      constructor
      · rw [hc, List.count_append]
        simp [List.count_singleton', Ne.symm hne]
      · rw [hp, List.indexOf_append_of_mem hel]
    · obtain ⟨hc, hp⟩ := hent (v, c, p) hmemt
      simp only at hc hp
      have hvl : v ∈ pre := (hmem v).1 (List.mem_map_of_mem Prod.fst hmemt)
      subst heq
      constructor
      · simp only [List.count_append, List.count_singleton]
        simp [hc]
      · simp only
        rw [hp, List.indexOf_append_of_mem hvl]
    · have hvl : v ∉ pre := fun h => hnm ((hmem v).2 h)
      subst heq
      constructor
      · simp only [List.count_append, List.count_singleton]
        rw [List.count_eq_zero_of_not_mem hvl]
        simp
      · simp only
        rw [List.indexOf_append_of_not_mem hvl]
        simp

theorem buildTableAux_append (xs : List ℚ) (v : ℚ) :
    ∀ (i : ℕ) (t : List (ℚ × ℕ × ℕ)),
      buildTableAux i (xs ++ [v]) t =
        updateTable (buildTableAux i xs t) (i + xs.length) v := by
  induction xs with
  | nil => intro i t; simp [buildTableAux]
  | cons x xs ih =>
      intro i t
      rw [List.cons_append]
      show buildTableAux (i + 1) (xs ++ [v]) (updateTable t i x) = _
      rw [ih]
      show updateTable _ (i + 1 + xs.length) v = updateTable _ (i + (xs.length + 1)) v
      congr 1
      omega

theorem buildTable_inv (l : List ℚ) : TableInv l (buildTable l) := by
  induction l using List.reverseRecOn with
  | nil => exact ⟨by simp [buildTable, buildTableAux], by simp [buildTable, buildTableAux],
      by simp [buildTable, buildTableAux]⟩
  | append_singleton xs v ih =>
      show TableInv _ (buildTableAux 0 (xs ++ [v]) [])
      rw [buildTableAux_append]
      simpa using tableInv_update ih v

/-- Corollary of `TableInv`: every value of the input owns a table entry
carrying its frequency and first-occurrence index. -/
theorem tableInv_entry_of_mem {l : List ℚ} {t : List (ℚ × ℕ × ℕ)}
    (h : TableInv l t) {w : ℚ} (hw : w ∈ l) :
    (w, l.count w, l.indexOf w) ∈ t := by
  obtain ⟨hmem, _hnd, hent⟩ := h
  obtain ⟨e, het, he⟩ := List.mem_map.1 ((hmem w).2 hw)
  obtain ⟨hc, hp⟩ := hent e het
  obtain ⟨a, b, c⟩ := e
  simp only at he hc hp
  subst he; subst hc; subst hp
  exact het

theorem foldl_max_init (t : List (ℚ × ℕ × ℕ)) :
    ∀ a : ℕ, a ≤ t.foldl (fun m e => max m e.2.1) a := by
  induction t with
  | nil => intro a; exact le_rfl
  | cons e rest ih =>
      intro a
      exact le_trans (Nat.le_max_left a e.2.1) (ih (max a e.2.1))

theorem foldl_max_mem (t : List (ℚ × ℕ × ℕ)) :
    ∀ (a : ℕ) (e : ℚ × ℕ × ℕ), e ∈ t → e.2.1 ≤ t.foldl (fun m e => max m e.2.1) a := by
  induction t with
  | nil => intro a e he; cases he
  | cons hd rest ih =>
      intro a e he
      rcases List.mem_cons.1 he with rfl | he
      · exact le_trans (Nat.le_max_right a e.2.1) (foldl_max_init rest _)
      · exact ih _ e he

theorem maxCount_ge (t : List (ℚ × ℕ × ℕ)) : ∀ e ∈ t, e.2.1 ≤ maxCount t :=
  fun e he => foldl_max_mem t 0 e he

theorem foldl_max_attained (t : List (ℚ × ℕ × ℕ)) :
    ∀ a : ℕ, t.foldl (fun m e => max m e.2.1) a = a ∨
      ∃ e ∈ t, e.2.1 = t.foldl (fun m e => max m e.2.1) a := by
  induction t with
  | nil => intro a; exact Or.inl rfl
  | cons hd rest ih =>
      intro a
      rw [List.foldl_cons]
      rcases ih (max a hd.2.1) with h | ⟨e, he, hev⟩
      · rcases max_choice a hd.2.1 with hm | hm
        · exact Or.inl (h.trans hm)
        · exact Or.inr ⟨hd, List.mem_cons_self _ _, (h.trans hm).symm⟩
      · exact Or.inr ⟨e, List.mem_cons_of_mem _ he, hev⟩

theorem maxCount_attained (t : List (ℚ × ℕ × ℕ)) (h : maxCount t ≠ 0) :
    ∃ e ∈ t, e.2.1 = maxCount t := by
  rcases foldl_max_attained t 0 with h0 | h0
  · exact absurd h0 h
  · exact h0

theorem selectBestAux_cons_ne (v : ℚ) (c p : ℕ) (rest : List (ℚ × ℕ × ℕ))
    (mc : ℕ) (best : Option (ℚ × ℕ)) (hc : c ≠ mc) :
    selectBestAux ((v, c, p) :: rest) mc best = selectBestAux rest mc best := by
  rcases best with _ | ⟨bv, bp⟩ <;> simp [selectBestAux, hc]

theorem selectBestAux_some (t : List (ℚ × ℕ × ℕ)) :
    ∀ (mc : ℕ) (best : Option (ℚ × ℕ)) (r : ℚ × ℕ),
      selectBestAux t mc best = some r →
      (((r.1, mc, r.2) ∈ t) ∨ best = some r) ∧
      (∀ e ∈ t, e.2.1 = mc → r.2 ≤ e.2.2) ∧
      (∀ b : ℚ × ℕ, best = some b → r.2 ≤ b.2) := by
  induction t with
  | nil =>
      intro mc best r h
      refine ⟨Or.inr h, by simp, ?_⟩
      rintro b rfl
      simp only [selectBestAux, Option.some.injEq] at h
      rw [h]
  | cons hd rest ih =>
      obtain ⟨v, c, p⟩ := hd
      intro mc best r h
      by_cases hc : c = mc
      · subst hc
        rcases best with _ | ⟨bv, bp⟩
        · rw [show selectBestAux ((v, c, p) :: rest) c none =
                selectBestAux rest c (some (v, p)) by simp [selectBestAux]] at h
          obtain ⟨horig, hmin, hacc⟩ := ih c (some (v, p)) r h
          refine ⟨?_, ?_, by simp⟩
          · rcases horig with horig | horig
            · exact Or.inl (List.mem_cons_of_mem _ horig)
            · simp only [Option.some.injEq] at horig
              rw [← horig]
              exact Or.inl (List.mem_cons_self _ _)
          · intro e he hec
            rcases List.mem_cons.1 he with rfl | he
            · exact hacc (v, p) rfl
            · exact hmin e he hec
        · by_cases hp : p < bp
          · rw [show selectBestAux ((v, c, p) :: rest) c (some (bv, bp)) =
                  selectBestAux rest c (some (v, p)) by simp [selectBestAux, hp]] at h
            obtain ⟨horig, hmin, hacc⟩ := ih c (some (v, p)) r h
            refine ⟨?_, ?_, ?_⟩
            · rcases horig with horig | horig
              · exact Or.inl (List.mem_cons_of_mem _ horig)
              · simp only [Option.some.injEq] at horig
                rw [← horig]
                exact Or.inl (List.mem_cons_self _ _)
            · intro e he hec
              rcases List.mem_cons.1 he with rfl | he
              · exact hacc (v, p) rfl
              · exact hmin e he hec
            · intro b hb
              simp only [Option.some.injEq] at hb
              rw [← hb]
              exact le_trans (hacc (v, p) rfl) (le_of_lt hp)
          · rw [show selectBestAux ((v, c, p) :: rest) c (some (bv, bp)) =
                  selectBestAux rest c (some (bv, bp)) by simp [selectBestAux, hp]] at h
            obtain ⟨horig, hmin, hacc⟩ := ih c (some (bv, bp)) r h
            refine ⟨?_, ?_, ?_⟩
            · rcases horig with horig | horig
              · exact Or.inl (List.mem_cons_of_mem _ horig)
              · exact Or.inr horig
            · intro e he hec
              rcases List.mem_cons.1 he with rfl | he
              · exact le_trans (hacc (bv, bp) rfl) (Nat.le_of_not_lt hp)
              · exact hmin e he hec
            · exact hacc
      · rw [selectBestAux_cons_ne v c p rest mc best hc] at h
        obtain ⟨horig, hmin, hacc⟩ := ih mc best r h
        refine ⟨?_, ?_, hacc⟩
        · rcases horig with horig | horig
          · exact Or.inl (List.mem_cons_of_mem _ horig)
          · exact Or.inr horig
        · intro e he hec
          rcases List.mem_cons.1 he with rfl | he
          · exact absurd hec hc
          · exact hmin e he hec

theorem selectBestAux_none (t : List (ℚ × ℕ × ℕ)) :
    ∀ (mc : ℕ) (best : Option (ℚ × ℕ)), selectBestAux t mc best = none →
      best = none ∧ ∀ e ∈ t, e.2.1 ≠ mc := by
  induction t with
  | nil =>
      intro mc best h
      exact ⟨h, by simp⟩
  | cons hd rest ih =>
      obtain ⟨v, c, p⟩ := hd
      intro mc best h
      by_cases hc : c = mc
      · subst hc
        exfalso
        rcases best with _ | ⟨bv, bp⟩
        · rw [show selectBestAux ((v, c, p) :: rest) c none =
                selectBestAux rest c (some (v, p)) by simp [selectBestAux]] at h
          exact Option.some_ne_none _ ((ih c (some (v, p)) h).1)
        · by_cases hp : p < bp
          · rw [show selectBestAux ((v, c, p) :: rest) c (some (bv, bp)) =
                  selectBestAux rest c (some (v, p)) by simp [selectBestAux, hp]] at h
            exact Option.some_ne_none _ ((ih c (some (v, p)) h).1)
          · rw [show selectBestAux ((v, c, p) :: rest) c (some (bv, bp)) =
                  selectBestAux rest c (some (bv, bp)) by simp [selectBestAux, hp]] at h
            exact Option.some_ne_none _ ((ih c (some (bv, bp)) h).1)
      · rw [selectBestAux_cons_ne v c p rest mc best hc] at h
        obtain ⟨hb, hrest⟩ := ih mc best h
        refine ⟨hb, ?_⟩
        intro e he
        rcases List.mem_cons.1 he with rfl | he
        · exact hc
        · exact hrest e he

/-- C3: for a non-empty value sequence, `_mode` reports no mode when every
value's frequency is at most 1; a returned mode is a value of maximal
frequency (at least 2) whose first-occurrence index is least among the
maximal-frequency values; a mode exists whenever some frequency reaches 2;
and `[5, 3, 5, 3]` yields mode `5`. -/
theorem mode_spec (l : List ℚ) (_hne : l ≠ []) :
    ((∀ v ∈ l, l.count v ≤ 1) → modeOf l = none) ∧
    (∀ m, modeOf l = some m →
        m ∈ l ∧ 2 ≤ l.count m ∧
        (∀ w ∈ l, l.count w ≤ l.count m) ∧
        (∀ w ∈ l, l.count w = l.count m → l.indexOf m ≤ l.indexOf w)) ∧
    ((∃ v ∈ l, 2 ≤ l.count v) → ∃ m, modeOf l = some m) ∧
    modeOf [5, 3, 5, 3] = some 5 := by
  have hinv := buildTable_inv l
  obtain ⟨hmem, hnd, hent⟩ := hinv
  refine ⟨?_, ?_, ?_, by decide⟩
  · intro hall
    have hmc : maxCount (buildTable l) ≤ 1 := by
      by_contra hgt
      have hne0 : maxCount (buildTable l) ≠ 0 := by omega
      obtain ⟨e, he, hev⟩ := maxCount_attained _ hne0
      have he1 : e.1 ∈ l := (hmem e.1).1 (List.mem_map_of_mem Prod.fst he)
      have := (hent e he).1
      have := hall e.1 he1
      omega
    simp [modeOf, hmc]
  · intro m hm
    simp only [modeOf] at hm
    by_cases hmc : maxCount (buildTable l) ≤ 1
    · rw [if_pos hmc] at hm; cases hm
    · rw [if_neg hmc] at hm
      obtain ⟨r, hr, hr1⟩ := Option.map_eq_some'.1 hm
      obtain ⟨horig, hmin, _⟩ := selectBestAux_some _ _ _ _ hr
      rcases horig with horig | horig
      swap
      · cases horig
      have hrmem : r.1 ∈ l := (hmem r.1).1 (List.mem_map_of_mem Prod.fst horig)
      obtain ⟨hcnt, hidx⟩ := hent _ horig
      simp only at hcnt hidx
      subst hr1
      have hcm : l.count r.1 = maxCount (buildTable l) := hcnt.symm
      refine ⟨hrmem, by omega, ?_, ?_⟩
      · intro w hw
        have hwent := tableInv_entry_of_mem ⟨hmem, hnd, hent⟩ hw
        have := maxCount_ge _ _ hwent
        simp only at this
        omega
      · intro w hw hwc
        have hwent := tableInv_entry_of_mem ⟨hmem, hnd, hent⟩ hw
        have : r.2 ≤ l.indexOf w := hmin _ hwent (by simp only; omega)
        omega
  · rintro ⟨v, hv, hv2⟩
    have hvent := tableInv_entry_of_mem ⟨hmem, hnd, hent⟩ hv
    have hmax := maxCount_ge _ _ hvent
    simp only at hmax
    have hmc : ¬ maxCount (buildTable l) ≤ 1 := by omega
    simp only [modeOf, if_neg hmc]
    rcases hsel : selectBestAux (buildTable l) (maxCount (buildTable l)) none with _ | r
    · exfalso
      obtain ⟨-, hnone⟩ := selectBestAux_none _ _ _ hsel
      have hne0 : maxCount (buildTable l) ≠ 0 := by omega
      obtain ⟨e, he, hev⟩ := maxCount_attained _ hne0
      exact hnone e he hev
    · exact ⟨r.1, rfl⟩

theorem mode_spec_witness : modeOf [5, 3, 5, 3] = some 5 :=
  (mode_spec [5, 3, 5, 3] (by simp)).2.2.2

theorem foldl_add_eq_sum (f : ℚ → ℚ) (l : List ℚ) :
    ∀ a : ℚ, l.foldl (fun acc v => acc + f v) a = a + (l.map f).sum := by
  induction l with
  | nil => intro a; simp
  | cons x xs ih =>
      intro a
      rw [List.foldl_cons, ih, List.map_cons, List.sum_cons]
      ring

/-- C4: the median is obtained by sorting ascending (a sorted permutation of
the input) and taking the middle element (odd length) or the average of the
two middle elements (even length); `[1,2,3,4]` gives `5/2` and `[1,2,3]`
gives `2`. -/
theorem median_spec (l : List ℚ) (hne : l ≠ []) :
    List.Sorted (· ≤ ·) (sortValues l) ∧
    (sortValues l).Perm l ∧
    medianOf (sortValues l) =
      (if (sortValues l).length % 2 = 1 then
        (sortValues l).getD ((sortValues l).length / 2) 0
       else
        ((sortValues l).getD ((sortValues l).length / 2 - 1) 0 +
         (sortValues l).getD ((sortValues l).length / 2) 0) / 2) ∧
    medianOf (sortValues [1, 2, 3, 4]) = 5 / 2 ∧
    medianOf (sortValues [1, 2, 3]) = 2 := by
  refine ⟨List.sorted_insertionSort _ l, List.perm_insertionSort _ l, ?_, ?_, ?_⟩
  · have hlen : (sortValues l).length ≠ 0 := by
      rw [show sortValues l = List.insertionSort (· ≤ ·) l from rfl,
        (List.perm_insertionSort (· ≤ ·) l).length_eq]
      simpa using hne
    simp only [medianOf, if_neg hlen]
  · norm_num [sortValues, List.insertionSort, List.orderedInsert, medianOf]
  · norm_num [sortValues, List.insertionSort, List.orderedInsert, medianOf]

theorem median_spec_witness :
    medianOf (sortValues [1, 2, 3, 4]) = 5 / 2 ∧ medianOf (sortValues [1, 2, 3]) = 2 :=
  ⟨(median_spec [1, 2, 3, 4] (by simp)).2.2.2.1,
   (median_spec [1, 2, 3] (by simp)).2.2.2.2⟩

/-- C5: the variance is the population variance — the sum of squared
deviations from the mean divided by the count (not count − 1) — and the
standard deviation is its square root; `[2,4,4,4,5,5,7,9]` yields mean `5`,
variance `4` and standard deviation `2`. -/
theorem variance_spec (l : List ℚ) (hne : l ≠ []) :
    populationVariance l (meanOf l) =
      ((l.map (fun v => (v - meanOf l) * (v - meanOf l))).sum) / l.length ∧
    populationStd (populationVariance l (meanOf l)) =
      Real.sqrt (populationVariance l (meanOf l)) ∧
    meanOf [2, 4, 4, 4, 5, 5, 7, 9] = 5 ∧
    populationVariance [2, 4, 4, 4, 5, 5, 7, 9] (meanOf [2, 4, 4, 4, 5, 5, 7, 9]) = 4 ∧
    populationStd (populationVariance [2, 4, 4, 4, 5, 5, 7, 9] (meanOf [2, 4, 4, 4, 5, 5, 7, 9])) = 2 := by
  have hmean : meanOf [2, 4, 4, 4, 5, 5, 7, 9] = 5 := by
    norm_num [meanOf, List.foldl]
  have hvar : populationVariance [2, 4, 4, 4, 5, 5, 7, 9] (meanOf [2, 4, 4, 4, 5, 5, 7, 9]) = 4 := by
    rw [hmean]
    norm_num [populationVariance, List.foldl]
  refine ⟨?_, rfl, hmean, hvar, ?_⟩
  · have hlen : l.length ≠ 0 := by simpa using hne
    simp only [populationVariance, if_neg hlen]
    rw [foldl_add_eq_sum (fun v => (v - meanOf l) * (v - meanOf l)) l 0]
    rw [zero_add]
  · rw [hvar]
    show Real.sqrt ((4 : ℚ) : ℝ) = 2
    rw [show ((4 : ℚ) : ℝ) = (2 : ℝ) ^ 2 by norm_num]
    rw [Real.sqrt_sq (by norm_num : (0 : ℝ) ≤ 2)]

theorem variance_spec_witness :
    populationVariance [2, 4, 4, 4, 5, 5, 7, 9] (meanOf [2, 4, 4, 4, 5, 5, 7, 9]) = 4 :=
  (variance_spec [2, 4, 4, 4, 5, 5, 7, 9] (by simp)).2.2.2.1

theorem decDigitsGo_ne_nil (fuel n : ℕ) : decDigitsGo fuel n ≠ [] := by
  cases fuel with
  | zero => simp [decDigitsGo]
  | succ fuel =>
      simp only [decDigitsGo]
      split <;> simp

theorem decDigitsGo_digits (fuel : ℕ) :
    ∀ n, ∀ c ∈ decDigitsGo fuel n, ∃ d, d < 10 ∧ c = Char.ofNat (48 + d) := by
  induction fuel with
  | zero =>
      intro n c hc
      simp only [decDigitsGo, List.mem_singleton] at hc
      exact ⟨n % 10, Nat.mod_lt _ (by norm_num), hc⟩
  | succ fuel ih =>
      intro n c hc
      simp only [decDigitsGo] at hc
      by_cases h10 : n < 10
      · rw [if_pos h10, List.mem_singleton] at hc
        exact ⟨n, h10, hc⟩
      · rw [if_neg h10, List.mem_append] at hc
        rcases hc with hc | hc
        · exact ih _ c hc
        · rw [List.mem_singleton] at hc
          exact ⟨n % 10, Nat.mod_lt _ (by norm_num), hc⟩

theorem digitChar_ne_dot : ∀ d : ℕ, d < 10 → Char.ofNat (48 + d) ≠ '.' := by decide

theorem decDigits_ne_dot (n : ℕ) : ∀ c ∈ decDigits n, c ≠ '.' := by
  intro c hc
  obtain ⟨d, hd, rfl⟩ := decDigitsGo_digits n n c hc
  exact digitChar_ne_dot d hd

theorem decDigitsGo_fuel_irrel :
    ∀ fuel fuel' n : ℕ, n ≤ fuel → n ≤ fuel' → decDigitsGo fuel n = decDigitsGo fuel' n := by
  intro fuel
  induction fuel with
  | zero =>
      intro fuel' n h h'
      have : n = 0 := by omega
      subst this
      cases fuel' with
      | zero => rfl
      | succ f => simp [decDigitsGo]
  | succ fuel ih =>
      intro fuel' n h h'
      cases fuel' with
      | zero =>
          have : n = 0 := by omega
          subst this
          simp [decDigitsGo]
      | succ f =>
          by_cases h10 : n < 10
          · simp [decDigitsGo, h10]
          · simp only [decDigitsGo, if_neg h10]
            congr 1
            exact ih f (n / 10) (by omega) (by omega)

theorem decDigits_lt10 (n : ℕ) (h : n < 10) : decDigits n = [Char.ofNat (48 + n)] := by
  cases n with
  | zero => simp [decDigits, decDigitsGo]
  | succ m => simp [decDigits, decDigitsGo, h]

theorem decDigits_unfold (n : ℕ) (h10 : 10 ≤ n) :
    decDigits n = decDigits (n / 10) ++ [Char.ofNat (48 + n % 10)] := by
  obtain ⟨m, rfl⟩ : ∃ m, n = m + 1 := ⟨n - 1, by omega⟩
  show decDigitsGo (m + 1) (m + 1) = _
  rw [show decDigitsGo (m + 1) (m + 1) =
        if m + 1 < 10 then [Char.ofNat (48 + (m + 1))]
        else decDigitsGo m ((m + 1) / 10) ++ [Char.ofNat (48 + (m + 1) % 10)] from rfl]
  rw [if_neg (by omega)]
  congr 1
  exact decDigitsGo_fuel_irrel m ((m + 1) / 10) ((m + 1) / 10) (by omega) le_rfl

theorem decDigits_mul10 (n : ℕ) (h : 1 ≤ n) :
    decDigits (n * 10) = decDigits n ++ ['0'] := by
  rw [decDigits_unfold (n * 10) (by omega)]
  rw [Nat.mul_div_cancel n (by norm_num : 0 < 10)]
  rw [Nat.mul_mod_left]

theorem decDigits_mul_pow10 (k : ℕ) :
    ∀ n : ℕ, 1 ≤ n → decDigits (n * 10 ^ k) = decDigits n ++ List.replicate k '0' := by
  induction k with
  | zero => intro n _; simp
  | succ k ih =>
      intro n h
      rw [show n * 10 ^ (k + 1) = (n * 10) * 10 ^ k by ring]
      rw [ih (n * 10) (by omega)]
      rw [decDigits_mul10 n h]
      rw [List.append_assoc]
      rw [List.singleton_append, ← List.replicate_succ]

theorem strip_fixed_of_digits (L : List Char) (hne : L ≠ []) (hdot : ∀ c ∈ L, c ≠ '.') :
    stripTrailingDot (stripTrailingZeros (L ++ '.' :: List.replicate 10 '0')) = L := by
  have h1 : stripTrailingZeros (L ++ '.' :: List.replicate 10 '0') = L ++ ['.'] := by
    unfold stripTrailingZeros
    rw [List.reverse_append, List.reverse_cons, List.reverse_replicate]
    rw [List.append_assoc, List.singleton_append]
    rw [List.dropWhile_append]
    rw [show List.dropWhile (· == '0') (List.replicate 10 '0') = [] by
      simp [List.dropWhile_replicate]]
    simp only [List.isEmpty_nil, if_true]
    rw [List.dropWhile_cons_of_neg (by decide)]
    rw [List.reverse_cons, List.reverse_reverse]
  have h2 : stripTrailingDot (L ++ ['.']) = L := by
    unfold stripTrailingDot
    rw [List.reverse_append]
    rw [show (['.'] : List Char).reverse = ['.'] from rfl]
    rw [List.singleton_append]
    rw [List.dropWhile_cons_of_pos (by decide)]
    rcases hrev : L.reverse with _ | ⟨r, R⟩
    · exact absurd (by simpa using congrArg List.reverse hrev) hne
    · have hr : r ∈ L := by
        have : r ∈ L.reverse := by rw [hrev]; exact List.mem_cons_self _ _
        rwa [List.mem_reverse] at this
      rw [List.dropWhile_cons_of_neg]
      · rw [← hrev, List.reverse_reverse]
      · simpa using hdot r hr
  rw [h1, h2]

theorem scaled_nat (n : ℕ) : (⌊(n : ℚ) * 10 ^ 10 + 1 / 2⌋).toNat = n * 10 ^ 10 := by
  have h1 : (n : ℚ) * 10 ^ 10 + 1 / 2 = 1 / 2 + ((n * 10 ^ 10 : ℕ) : ℚ) := by
    push_cast
    ring
  rw [h1, Int.floor_add_nat]
  rw [show ⌊(1 / 2 : ℚ)⌋ = 0 by
    rw [Int.floor_eq_zero_iff]
    constructor <;> norm_num]
  rw [zero_add, Int.toNat_natCast]

theorem formatFixed10_nat (n : ℕ) (h : 1 ≤ n) :
    formatFixed10 (n : ℚ) = decDigits n ++ '.' :: List.replicate 10 '0' := by
  have hlen1 : 1 ≤ (decDigits n).length :=
    List.length_pos.mpr (decDigitsGo_ne_nil n n)
  simp only [formatFixed10]
  rw [scaled_nat n, decDigits_mul_pow10 10 n h]
  rw [if_neg (by simp; omega)]
  have hlen : (decDigits n ++ List.replicate 10 '0').length - 10 = (decDigits n).length := by
    simp
  rw [hlen, List.take_left, List.drop_left]

theorem formatNumber_nat (n : ℕ) : formatNumber (n : ℚ) = String.mk (decDigits n) := by
  have hnonneg : ¬ ((n : ℚ) < 0) := not_lt.mpr (Nat.cast_nonneg n)
  by_cases h0 : n = 0
  · subst h0
    simp only [formatNumber, if_neg hnonneg, formatFixed10]
    rw [scaled_nat 0]
    decide
  · simp only [formatNumber, if_neg hnonneg]
    rw [formatFixed10_nat n (by omega)]
    rw [strip_fixed_of_digits (decDigits n) (decDigitsGo_ne_nil n n) (decDigits_ne_dot n)]
    rw [if_neg (by simpa using decDigitsGo_ne_nil n n)]

/-- C6: the formatter renders a value with 10 fractional digits, strips
trailing zeros then a trailing decimal point, falling back to `"0"` for an
empty result; every whole number therefore prints as its bare digits with no
decimal point, `3.0` prints as `"3"` and `3.14` prints as `"3.14"`. -/
theorem format_number_spec :
    (∀ x : ℚ, formatNumber x =
      (if (stripTrailingDot (stripTrailingZeros
            (if x < 0 then '-' :: formatFixed10 (-x) else formatFixed10 x))).isEmpty
       then "0"
       else String.mk (stripTrailingDot (stripTrailingZeros
            (if x < 0 then '-' :: formatFixed10 (-x) else formatFixed10 x))))) ∧
    (∀ n : ℕ, formatNumber (n : ℚ) = String.mk (decDigits n)) ∧
    (∀ n : ℕ, ∀ c ∈ (formatNumber (n : ℚ)).data, c ≠ '.') ∧
    formatNumber 3 = "3" ∧
    formatNumber (157 / 50) = "3.14" := by
  have hnat := formatNumber_nat
  refine ⟨fun x => rfl, hnat, ?_, ?_, ?_⟩
  · intro n c hc
    rw [hnat n] at hc
    exact decDigits_ne_dot n c hc
  · have := hnat 3
    rw [show ((3 : ℕ) : ℚ) = 3 by norm_num] at this
    rw [this]
    decide
  · have hscale : (⌊(157 / 50 : ℚ) * 10 ^ 10 + 1 / 2⌋).toNat = 31400000000 := by
      have h1 : (157 / 50 : ℚ) * 10 ^ 10 + 1 / 2 = 1 / 2 + ((31400000000 : ℕ) : ℚ) := by
        push_cast
        norm_num
      rw [h1, Int.floor_add_nat]
      rw [show ⌊(1 / 2 : ℚ)⌋ = 0 by
        rw [Int.floor_eq_zero_iff]
        constructor <;> norm_num]
      rw [zero_add, Int.toNat_natCast]
    simp only [formatNumber, if_neg (by norm_num : ¬ (157 / 50 : ℚ) < 0), formatFixed10]
    rw [hscale]
    decide

theorem format_number_spec_witness :
    formatNumber ((12 : ℕ) : ℚ) = String.mk (decDigits 12) ∧ formatNumber 3 = "3" :=
  ⟨format_number_spec.2.1 12, format_number_spec.2.2.2.1⟩

end ComputeStatistics

namespace ComputeStatistics

theorem statReadValuesAux_eq (lines : List (List Char)) :
    ∀ i : ℕ, readValuesAux i lines =
      (lines.filterMap tryParseNumber, (List.enumFrom i lines).filterMap lineDiag) := by
  induction lines with
  | nil => intro i; rfl
  | cons raw rest ih =>
      intro i
      simp only [readValuesAux, ih (i + 1)]
      rcases h : tryParseNumber raw with _ | v
      · by_cases hb : (PyStr.strip raw).isEmpty
        · simp [h, hb, List.enumFrom_cons, lineDiag, List.filterMap_cons]
        · simp [h, hb, List.enumFrom_cons, lineDiag, List.filterMap_cons]
      · simp [h, List.enumFrom_cons, lineDiag, List.filterMap_cons]

end ComputeStatistics

namespace ConvertNumbers

theorem convReadRowsAux_eq (lines : List (List Char)) :
    ∀ i : ℕ, readRowsAux i lines =
      (lines.filterMap lineRow, (List.enumFrom i lines).filterMap lineDiag) := by
  induction lines with
  | nil => intro i; rfl
  | cons raw rest ih =>
      intro i
      simp only [readRowsAux, ih (i + 1)]
      rcases h : parseInt raw with _ | v
      · by_cases hb : (PyStr.strip raw).isEmpty
        · simp [h, hb, List.enumFrom_cons, lineDiag, lineRow, List.filterMap_cons]
        · simp [h, hb, List.enumFrom_cons, lineDiag, lineRow, List.filterMap_cons]
      · simp [h, List.enumFrom_cons, lineDiag, lineRow, List.filterMap_cons]

end ConvertNumbers

namespace WordCount

theorem wcReadWordsAux_eq (lines : List (List Char)) :
    ∀ i : ℕ, readWordsAux i lines =
      ((lines.map lineWords).flatten, (List.enumFrom i lines).filterMap lineDiag) := by
  induction lines with
  | nil => intro i; rfl
  | cons raw rest ih =>
      intro i
      simp only [readWordsAux, ih (i + 1)]
      by_cases hb : (PyStr.strip (stripNewline raw)).isEmpty
      · simp [hb, List.enumFrom_cons, lineDiag, lineWords, List.filterMap_cons]
      · by_cases hw : (tokenize (stripNewline raw)).isEmpty
        · simp [hb, hw, List.enumFrom_cons, lineDiag, lineWords, List.filterMap_cons]
        · simp [hb, hw, List.enumFrom_cons, lineDiag, lineWords, List.filterMap_cons]

end WordCount

namespace WordCount

theorem indexOf_append_of_mem_beq {α : Type} [BEq α] [LawfulBEq α] {a : α}
    {l₁ : List α} (l₂ : List α) (h : a ∈ l₁) :
    List.indexOf a (l₁ ++ l₂) = List.indexOf a l₁ := by
  induction l₁ with
  | nil => cases h
  | cons d t ih =>
      rw [List.cons_append, List.indexOf_cons, List.indexOf_cons]
      by_cases hd : (d == a) = true
      · simp [hd]
      · simp only [hd, cond_false]
        have hat : a ∈ t := by
          rcases List.mem_cons.1 h with rfl | hmem
          · simp at hd
          · exact hmem
        rw [ih hat]

theorem indexOf_append_of_not_mem_beq {α : Type} [BEq α] [LawfulBEq α] {a : α}
    {l₁ : List α} (l₂ : List α) (h : a ∉ l₁) :
    List.indexOf a (l₁ ++ l₂) = l₁.length + List.indexOf a l₂ := by
  induction l₁ with
  | nil => simp
  | cons d t ih =>
      rw [List.cons_append, List.indexOf_cons]
      have hd : (d == a) = false := by
        rw [beq_eq_false_iff_ne]
        intro hda
        exact h (hda ▸ List.mem_cons_self _ _)
      simp only [hd, cond_false]
      rw [ih (fun hat => h (List.mem_cons_of_mem _ hat))]
      simp only [List.length_cons]
      omega

theorem indexOf_lt_length_beq {α : Type} [BEq α] [LawfulBEq α] {a : α} {l : List α}
    (h : a ∈ l) : List.indexOf a l < l.length := by
  induction l with
  | nil => cases h
  | cons d t ih =>
      rw [List.indexOf_cons]
      by_cases hd : (d == a) = true
      · simp [hd]
      · simp only [hd, cond_false, List.length_cons]
        have hat : a ∈ t := by
          rcases List.mem_cons.1 h with rfl | hmem
          · simp at hd
          · exact hmem
        have := ih hat
        omega

theorem indexOf_cons_self_beq {α : Type} [BEq α] [LawfulBEq α] (a : α) (l : List α) :
    List.indexOf a (a :: l) = 0 := by
  rw [List.indexOf_cons]
  simp

theorem incrCount_keys (counts : List (List Char × ℕ)) (w : List Char) :
    (incrCount counts w).map Prod.fst = counts.map Prod.fst := by
  induction counts with
  | nil => rfl
  | cons e rest ih =>
      obtain ⟨k, c⟩ := e
      by_cases hk : k = w
      · simp [incrCount, hk]
      · simp [incrCount, hk, ih]

theorem incrCount_entries (counts : List (List Char × ℕ)) (w : List Char)
    (hnd : (counts.map Prod.fst).Nodup) :
    ∀ e ∈ incrCount counts w,
      (∃ c, (w, c) ∈ counts ∧ e = (w, c + 1)) ∨ (e.1 ≠ w ∧ e ∈ counts) := by
  induction counts with
  | nil => intro e he; cases he
  | cons hd rest ih =>
      obtain ⟨k, c⟩ := hd
      simp only [List.map_cons, List.nodup_cons] at hnd
      obtain ⟨hkrest, hndrest⟩ := hnd
      intro e he
      by_cases hk : k = w
      · subst hk
        simp only [incrCount, if_pos rfl, if_true] at he
        rw [List.mem_cons] at he
        rcases he with he | he
        · exact Or.inl ⟨c, List.mem_cons_self _ _, he⟩
        · refine Or.inr ⟨?_, List.mem_cons_of_mem _ he⟩
          intro h1
          exact hkrest (h1 ▸ List.mem_map_of_mem Prod.fst he)
      · simp only [incrCount, if_neg hk] at he
        rw [List.mem_cons] at he
        rcases he with he | he
        · rw [he]
          exact Or.inr ⟨hk, List.mem_cons_self _ _⟩
        · rcases ih hndrest e he with ⟨c', hmem, heq⟩ | ⟨hne, hmem⟩
          · exact Or.inl ⟨c', List.mem_cons_of_mem _ hmem, heq⟩
          · exact Or.inr ⟨hne, List.mem_cons_of_mem _ hmem⟩

theorem incrCount_sum (counts : List (List Char × ℕ)) (w : List Char)
    (hw : w ∈ counts.map Prod.fst) :
    ((incrCount counts w).map Prod.snd).sum = (counts.map Prod.snd).sum + 1 := by
  induction counts with
  | nil => cases hw
  | cons hd rest ih =>
      obtain ⟨k, c⟩ := hd
      by_cases hk : k = w
      · simp [incrCount, hk]
        omega
      · have hw' : w ∈ rest.map Prod.fst := by
          rcases List.mem_cons.1 hw with h | h
          · exact absurd h.symm hk
          · exact h
        simp [incrCount, hk, ih hw']
        omega

theorem countInv_nil : CountInv [] [] [] := by
  refine ⟨rfl, List.nodup_nil, by simp, by simp, rfl, List.Pairwise.nil⟩

theorem countInv_step {pre : List (List Char)} {counts : List (List Char × ℕ)}
    {order : List (List Char)} (h : CountInv pre counts order) (w : List Char) :
    (w ∈ counts.map Prod.fst →
      CountInv (pre ++ [w]) (incrCount counts w) order) ∧
    (w ∉ counts.map Prod.fst →
      CountInv (pre ++ [w]) (counts ++ [(w, 1)]) (order ++ [w])) := by
  obtain ⟨hkeys, hnd, hmem, hcnt, hsum, hpw⟩ := h
  have hndk : (counts.map Prod.fst).Nodup := hkeys ▸ hnd
  constructor
  · intro hw
    have hwpre : w ∈ pre := (hmem w).1 (hkeys ▸ hw)
    refine ⟨(incrCount_keys counts w).trans hkeys, hnd, ?_, ?_, ?_, ?_⟩
    · intro v
      rw [hmem v]
      simp only [List.mem_append, List.mem_singleton]
      constructor
      · exact Or.inl
      · rintro (h | rfl)
        · exact h
        · exact hwpre
    · intro e he
      rcases incrCount_entries counts w hndk e he with ⟨c, hmemc, rfl⟩ | ⟨hne, hmemc⟩
      · have hc2 : c = List.count w pre := by simpa using hcnt (w, c) hmemc
        show c + 1 = List.count w (pre ++ [w])
        rw [List.count_append, ← hc2]
        simp
      · have hev := hcnt e hmemc
        have hene : e.1 ∉ ([w] : List (List Char)) := by
          simp only [List.mem_singleton]
          exact hne
        rw [hev, List.count_append, List.count_eq_zero_of_not_mem hene]
        omega
    · rw [incrCount_sum counts w hw, hsum]
      simp
    · refine hpw.imp_of_mem ?_
      intro a b ha hb hab
      show List.indexOf a (pre ++ [w]) < List.indexOf b (pre ++ [w])
      rw [indexOf_append_of_mem_beq [w] ((hmem a).1 ha),
        indexOf_append_of_mem_beq [w] ((hmem b).1 hb)]
      exact hab
  · intro hw
    have hworder : w ∉ order := fun h => hw (by rw [hkeys]; exact h)
    have hwpre : w ∉ pre := fun h => hworder ((hmem w).2 h)
    refine ⟨by simp [hkeys], ?_, ?_, ?_, ?_, ?_⟩
    · exact List.Nodup.append hnd (List.nodup_singleton w)
        (by simpa [List.disjoint_singleton] using hworder)
    · intro v
      simp only [List.mem_append, List.mem_singleton, hmem v]
    · intro e he
      rcases List.mem_append.1 he with he | he
      · have hev := hcnt e he
        have hek : e.1 ∈ counts.map Prod.fst := List.mem_map_of_mem Prod.fst he
        have hene : e.1 ∉ ([w] : List (List Char)) := by
          simp only [List.mem_singleton]
          intro h1
          exact hw (h1 ▸ hek)
        rw [hev, List.count_append, List.count_eq_zero_of_not_mem hene]
        omega
      · rw [List.mem_singleton] at he
        subst he
        show (1 : ℕ) = List.count w (pre ++ [w])
        rw [List.count_append, List.count_eq_zero_of_not_mem hwpre]
        simp
    · simp only [List.map_append, List.sum_append, hsum]
      simp
    · rw [List.pairwise_append]
      refine ⟨?_, List.pairwise_singleton _ _, ?_⟩
      · refine hpw.imp_of_mem ?_
        intro a b ha hb hab
        show List.indexOf a (pre ++ [w]) < List.indexOf b (pre ++ [w])
        rw [indexOf_append_of_mem_beq [w] ((hmem a).1 ha),
          indexOf_append_of_mem_beq [w] ((hmem b).1 hb)]
        exact hab
      · intro a ha b hb
        rw [List.mem_singleton] at hb
        subst hb
        show List.indexOf a (pre ++ [b]) < List.indexOf b (pre ++ [b])
        have hapre : a ∈ pre := (hmem a).1 ha
        rw [indexOf_append_of_mem_beq [b] hapre,
          indexOf_append_of_not_mem_beq [b] hwpre, indexOf_cons_self_beq]
        have := indexOf_lt_length_beq hapre
        omega

theorem countWordsAux_inv :
    ∀ (rest pre : List (List Char)) (counts : List (List Char × ℕ))
      (order : List (List Char)), CountInv pre counts order →
      CountInv (pre ++ rest) (countWordsAux rest counts order).1
        (countWordsAux rest counts order).2 := by
  intro rest
  induction rest with
  | nil =>
      intro pre counts order h
      simpa [countWordsAux] using h
  | cons w rest ih =>
      intro pre counts order h
      by_cases hw : w ∈ counts.map Prod.fst
      · have hstep := (countInv_step h w).1 hw
        have := ih (pre ++ [w]) (incrCount counts w) order hstep
        simpa [countWordsAux, hw, List.append_assoc] using this
      · have hstep := (countInv_step h w).2 hw
        have := ih (pre ++ [w]) (counts ++ [(w, 1)]) (order ++ [w]) hstep
        simpa [countWordsAux, hw, List.append_assoc] using this

/-- C9: the word table's order list holds each distinct accepted word exactly
once, ordered by first occurrence; each entry records its word's frequency;
the frequencies sum to the number of accepted tokens; and the tokens
`b a b c a a` produce order `b, a, c` with counts `2, 3, 1`. -/
theorem word_count_spec (ws : List (List Char)) :
    (countWords ws).2.Nodup ∧
    (∀ w, w ∈ (countWords ws).2 ↔ w ∈ ws) ∧
    (countWords ws).2.Pairwise (fun a b => ws.indexOf a < ws.indexOf b) ∧
    (countWords ws).1.map Prod.fst = (countWords ws).2 ∧
    (∀ e ∈ (countWords ws).1, e.2 = ws.count e.1) ∧
    ((countWords ws).1.map Prod.snd).sum = ws.length ∧
    countWords [['b'], ['a'], ['b'], ['c'], ['a'], ['a']] =
      ([(['b'], 2), (['a'], 3), (['c'], 1)], [['b'], ['a'], ['c']]) := by
  have h := countWordsAux_inv ws [] [] [] countInv_nil
  rw [List.nil_append] at h
  obtain ⟨hkeys, hnd, hmem, hcnt, hsum, hpw⟩ := h
  exact ⟨hnd, hmem, hpw, hkeys, hcnt, hsum, by decide⟩

theorem word_count_spec_witness :
    (['b'], 2).2 = [['b'], ['a'], ['b'], ['c'], ['a'], ['a']].count (['b'] : List Char) :=
  (word_count_spec [['b'], ['a'], ['b'], ['c'], ['a'], ['a']]).2.2.2.2.1 (['b'], 2)
    (by decide)

end WordCount

namespace WordCount

theorem tokenizeAux_ne_nil_of_cur (l : List Char) :
    ∀ cur : List Char, cur ≠ [] → tokenizeAux l cur ≠ [] := by
  induction l with
  | nil =>
      intro cur h
      simp [tokenizeAux, h]
  | cons c rest ih =>
      intro cur h
      by_cases hs : PyStr.isSpace c = true
      · simp only [tokenizeAux, hs, if_true]
        rw [if_neg (by simpa using h)]
        simp
      · simp only [tokenizeAux]
        rw [if_neg hs]
        exact ih (c :: cur) (by simp)

theorem tokenizeAux_ne_nil (l : List Char) :
    ∀ cur : List Char, (∃ c ∈ l, ¬ PyStr.isSpace c) → tokenizeAux l cur ≠ [] := by
  induction l with
  | nil =>
      rintro cur ⟨c, hc, -⟩
      cases hc
  | cons c rest ih =>
      rintro cur ⟨d, hd, hds⟩
      by_cases hs : PyStr.isSpace c = true
      · have hdrest : d ∈ rest := by
          rcases List.mem_cons.1 hd with rfl | h
          · exact absurd hs hds
          · exact h
        simp only [tokenizeAux, hs, if_true]
        by_cases hc : cur.isEmpty
        · rw [if_pos hc]
          exact ih [] ⟨d, hdrest, hds⟩
        · rw [if_neg hc]
          simp
      · simp only [tokenizeAux]
        rw [if_neg hs]
        exact tokenizeAux_ne_nil_of_cur rest (c :: cur) (by simp)

theorem strip_eq_nil_of_all_space (l : List Char) (h : ∀ c ∈ l, PyStr.isSpace c) :
    PyStr.strip l = [] := by
  unfold PyStr.strip
  rw [List.dropWhile_eq_nil_iff.2 (fun x hx => h x hx)]
  rfl

/-- C10: a line that is non-blank after whitespace trimming always tokenizes
to at least one word (the emptiness check and the tokenizer use the same
whitespace classification), so the secondary `no words` rejection branch of
the read loop can never fire: every diagnostic it emits reads `empty line`. -/
theorem no_words_unreachable (line : List Char) (lines : List (List Char)) :
    (¬ (PyStr.strip line).isEmpty = true → tokenize line ≠ []) ∧
    (∀ d ∈ (readWords lines).2, d.2 = "empty line") := by
  have hmain : ∀ l : List Char, ¬ (PyStr.strip l).isEmpty = true → tokenize l ≠ [] := by
    intro l h
    have hex : ∃ c ∈ l, ¬ PyStr.isSpace c := by
      by_contra hall
      push_neg at hall
      refine h ?_
      rw [strip_eq_nil_of_all_space l (fun c hc => by simpa using hall c hc)]
      rfl
    exact tokenizeAux_ne_nil l [] hex
  refine ⟨hmain line, ?_⟩
  intro d hd
  rw [show readWords lines = readWordsAux 1 lines from rfl, wcReadWordsAux_eq lines 1] at hd
  simp only [List.mem_filterMap] at hd
  obtain ⟨p, -, hp⟩ := hd
  simp only [lineDiag] at hp
  by_cases hb : (PyStr.strip (stripNewline p.2)).isEmpty
  · rw [if_pos hb] at hp
    rw [Option.some.injEq] at hp
    rw [← hp]
  · rw [if_neg hb] at hp
    have htok : tokenize (stripNewline p.2) ≠ [] := hmain (stripNewline p.2) hb
    rw [if_neg (by simpa using htok)] at hp
    cases hp

theorem no_words_unreachable_witness : tokenize ['x'] ≠ [] :=
  (no_words_unreachable ['x'] []).1 (by decide)

end WordCount

/-- C7: a successfully read file with zero accepted values makes the
statistics tool abort with exit code 1 and no report, while the conversion
and word-count tools exit 0 and emit a report built from zero rows (header
plus elapsed-time line only). -/
theorem empty_input_spec (lines : List (List Char)) (e : ℚ) (tl : String) :
    ((ComputeStatistics.readValues lines).1 = [] →
      ComputeStatistics.statisticsMain lines e = (1, none)) ∧
    ((ConvertNumbers.readRows lines).1 = [] →
      ConvertNumbers.convertMain lines tl =
        (0, some ["ITEM\tVALUE\tBIN\tHEX", tl])) ∧
    ((WordCount.readWords lines).1 = [] →
      WordCount.wordCountMain lines tl = (0, some ["WORD\tCOUNT", tl])) := by
  refine ⟨?_, ?_, ?_⟩
  · intro h
    simp [ComputeStatistics.statisticsMain, h]
  · intro h
    simp [ConvertNumbers.convertMain, ConvertNumbers.buildReport, h]
  · intro h
    simp [WordCount.wordCountMain, WordCount.buildReport, WordCount.countWords,
      WordCount.countWordsAux, h]

theorem empty_input_spec_witness :
    ComputeStatistics.statisticsMain [] 0 = (1, none) ∧
    ConvertNumbers.convertMain [] "TIME (seconds): 0" =
      (0, some ["ITEM\tVALUE\tBIN\tHEX", "TIME (seconds): 0"]) ∧
    WordCount.wordCountMain [] "TIME (seconds): 0" =
      (0, some ["WORD\tCOUNT", "TIME (seconds): 0"]) :=
  ⟨(empty_input_spec [] 0 "TIME (seconds): 0").1 rfl,
   (empty_input_spec [] 0 "TIME (seconds): 0").2.1 rfl,
   (empty_input_spec [] 0 "TIME (seconds): 0").2.2 rfl⟩

/-- C8: each read loop classifies every line (accepted values and diagnostics
are exactly the per-line filterMaps, so no rejection aborts the run and a
rejected line contributes nothing); a blank line is skipped silently by the
numeric and integer tools but reported as `empty line` by the word-count
tool; a non-blank rejected line always produces a diagnostic in the numeric
and integer tools. -/
theorem rejection_reporting_spec (lines : List (List Char)) (i : ℕ) (raw : List Char) :
    ComputeStatistics.readValues lines =
      (lines.filterMap ComputeStatistics.tryParseNumber,
       (List.enumFrom 1 lines).filterMap ComputeStatistics.lineDiag) ∧
    ConvertNumbers.readRows lines =
      (lines.filterMap ConvertNumbers.lineRow,
       (List.enumFrom 1 lines).filterMap ConvertNumbers.lineDiag) ∧
    WordCount.readWords lines =
      ((lines.map WordCount.lineWords).flatten,
       (List.enumFrom 1 lines).filterMap WordCount.lineDiag) ∧
    ((PyStr.strip raw).isEmpty →
      ComputeStatistics.lineDiag (i, raw) = none ∧
      ConvertNumbers.lineDiag (i, raw) = none) ∧
    ((PyStr.strip (WordCount.stripNewline raw)).isEmpty →
      WordCount.lineDiag (i, raw) = some (i, "empty line")) ∧
    (¬ (PyStr.strip raw).isEmpty → ComputeStatistics.tryParseNumber raw = none →
      ComputeStatistics.lineDiag (i, raw) = some (i, PyStr.strip raw)) ∧
    (¬ (PyStr.strip raw).isEmpty → ConvertNumbers.parseInt raw = none →
      ConvertNumbers.lineDiag (i, raw) = some (i, PyStr.strip raw)) := by
  refine ⟨ComputeStatistics.statReadValuesAux_eq lines 1,
    ConvertNumbers.convReadRowsAux_eq lines 1,
    WordCount.wcReadWordsAux_eq lines 1, ?_, ?_, ?_, ?_⟩
  · intro hb
    constructor
    · have hp : ComputeStatistics.tryParseNumber raw = none := by
        simp [ComputeStatistics.tryParseNumber, hb]
      simp [ComputeStatistics.lineDiag, hp, hb]
    · have hp : ConvertNumbers.parseInt raw = none := by
        simp [ConvertNumbers.parseInt, hb]
      simp [ConvertNumbers.lineDiag, hp, hb]
  · intro hb
    simp [WordCount.lineDiag, hb]
  · intro hb hp
    simp [ComputeStatistics.lineDiag, hp, hb]
  · intro hb hp
    simp [ConvertNumbers.lineDiag, hp, hb]

theorem rejection_reporting_spec_witness :
    ComputeStatistics.lineDiag (1, [' ']) = none ∧
    WordCount.lineDiag (2, []) = some (2, "empty line") ∧
    ComputeStatistics.lineDiag (3, ['x']) = some (3, ['x']) ∧
    ConvertNumbers.lineDiag (4, ['x']) = some (4, ['x']) :=
  ⟨((rejection_reporting_spec [] 1 [' ']).2.2.2.1 (by decide)).1,
   (rejection_reporting_spec [] 2 []).2.2.2.2.1 (by decide),
   (rejection_reporting_spec [] 3 ['x']).2.2.2.2.2.1 (by decide) (by decide),
   (rejection_reporting_spec [] 4 ['x']).2.2.2.2.2.2 (by decide) (by decide)⟩
